import Mathlib

/-!
Verification of `cinput` (`src/cinput/cinput.py`).

Shallow embedding of the line-editing engine `CommandWindow.Input`:
the mutable session state (edit buffer, cursor, history pointer, saved
draft, autocomplete match state, persisted history lines) and the
`get_input` event loop, translated method by method from the Python
source.  Rendering calls (`_draw_text_buffer`, curses calls) are pure
output and are omitted; everything that mutates session state is kept.

Python-specific semantics are modelled explicitly:
* machine integers are `Int` (Python ints are unbounded; `%` on a
  positive modulus is `Int.emod`, matching Python's floored modulo);
* `list.pop(i)` raises `IndexError` out of range, modelled as `Option`;
* `list.insert(i, x)` clamps the index;
* indexing `l[i]` accepts negative `i` (counting from the end).
-/

set_option maxHeartbeats 1000000

namespace Cinput

/-- Python `list.pop(i)`: removes the element at index `i` (a negative
index counts from the end); out-of-range raises `IndexError`, modelled
as `none`. -/
def pyPop {α : Type} (l : List α) (i : Int) : Option (List α) :=
  let j : Int := if i < 0 then (l.length : Int) + i else i
  if 0 ≤ j ∧ j < (l.length : Int) then some (l.take j.toNat ++ l.drop (j.toNat + 1))
  else none

/-- Python `list.insert(i, a)`: the index is clamped into `[0, len]`
after negative adjustment (never raises). -/
def pyInsertAt {α : Type} (l : List α) (i : Int) (a : α) : List α :=
  let j : Int := if i < 0 then max ((l.length : Int) + i) 0 else min i (l.length : Int)
  l.take j.toNat ++ a :: l.drop j.toNat

/-- Python indexing `l[i]`: a negative index counts from the end.
Out-of-range indexing raises `IndexError` in Python; every call site in
this development is proved in range (the history pointer stays in
`[-1, len(history)]` and match indices come from `emod` by a positive
length), so the totalising default is never produced. -/
def pyIdx {α : Type} [Inhabited α] (l : List α) (i : Int) : α :=
  let j : Int := if i < 0 then (l.length : Int) + i else i
  l.getD j.toNat Inhabited.default

/-- Python string slice `str[i:]` at the character level: a negative
start counts from the end; both directions clamp (never raises). -/
def pySliceFrom (str : String) (i : Int) : String :=
  if i < 0 then String.mk (str.toList.drop (((str.length : Int) + i).toNat))
  else String.mk (str.toList.drop i.toNat)

/-- Python `str.startswith(pre)` at the character level (structural,
so that concrete evaluation stays kernel-reducible). -/
def pyStartsWith (str pre : String) : Bool := pre.toList.isPrefixOf str.toList

/-- The state of one `CommandWindow.Input` session (`__init__`,
`src/cinput/cinput.py:167-188`), plus `hist_file`: the contents of the
persisted history file (the History Store), which `__init__` loads into
`history` and `_add_history_line` appends to.  `dflt` embeds the source
attribute `self.default` (`default` is reserved for `Inhabited` here). -/
structure InputState where
  history : List String
  bound : Int
  dflt : String
  text_buffer : List Char
  cursor_pos : Int
  hist_ptr : Int
  saved_text_buffer : List Char
  history_matches : List (List Char)
  extended_matches : List (List Char)
  matches' : List String
  match_index : Int
  autocomplete_buffer : String
  hist_file : List String
deriving Repr, DecidableEq

/-- Method `_get_active_buffer_string` (line 194): the history entry under the
pointer while browsing, else the live edit buffer. -/
def activeBufferString (s : InputState) : String :=
  if s.hist_ptr < (s.history.length : Int) then pyIdx s.history s.hist_ptr
  else String.mk s.text_buffer

/-- The first two lines of `up` (lines 241-242): capture the saved
draft if none is present (Python truthiness: an empty list counts as
"no saved text"). -/
def captureSaved (s : InputState) : InputState :=
  if s.saved_text_buffer = [] then { s with saved_text_buffer := s.text_buffer } else s

theorem captureSaved_hist_ptr (s : InputState) :
    (captureSaved s).hist_ptr = s.hist_ptr := by
  unfold captureSaved; split <;> rfl

/-- Method `_pull_history_to_current` (lines 354-358). -/
def pullHistoryToCurrent (s : InputState) : InputState :=
  if s.hist_ptr < (s.history.length : Int) then
    { s with saved_text_buffer := [],
             text_buffer := (pyIdx s.history s.hist_ptr).toList,
             hist_ptr := (s.history.length : Int) }
  else s

/-- Method `backspace` (lines 229-232); the `pop` can raise (see `pyPop`). -/
def backspace (s : InputState) : Option InputState :=
  let s1 := pullHistoryToCurrent s
  let s2 := { s1 with cursor_pos := s1.cursor_pos - 1 }
  (pyPop s2.text_buffer s2.cursor_pos).map (fun tb => { s2 with text_buffer := tb })

/-- Method `delete` (lines 234-238). -/
def deleteChar (s : InputState) : Option InputState :=
  let s1 := pullHistoryToCurrent s
  (pyPop s1.text_buffer s1.cursor_pos).map (fun tb =>
    let s2 := { s1 with text_buffer := tb }
    if s2.cursor_pos = ((activeBufferString s2).length : Int) + 1 then
      { s2 with cursor_pos := s2.cursor_pos - 1 }
    else s2)

/-- Method `up` (lines 240-251): move the history pointer towards older
entries, recursively skipping entries longer than the bound.  Note the
final `else` branch decrements even when the pointer is already `0`. -/
def up (s : InputState) : InputState :=
  let t := captureSaved s
  if 0 < t.hist_ptr ∧ ((pyIdx t.history (t.hist_ptr - 1)).length : Int) ≤ t.bound then
    let t2 := { t with hist_ptr := t.hist_ptr - 1 }
    { t2 with cursor_pos := ((activeBufferString t2).length : Int) }
  else if 0 < t.hist_ptr then
    up { t with hist_ptr := t.hist_ptr - 1 }
  else
    { t with hist_ptr := t.hist_ptr - 1 }
termination_by s.hist_ptr.toNat
decreasing_by
  unfold t at *
  simp only [captureSaved_hist_ptr] at *
  omega

/-- The tail of `down` (lines 260-263), run by every recursion frame:
restore the saved draft when back at the live position, then put the
cursor at the end of the active text. -/
def downRestore (s : InputState) : InputState :=
  let s1 := if s.saved_text_buffer ≠ [] ∧ s.hist_ptr = (s.history.length : Int) then
      { s with text_buffer := s.saved_text_buffer, saved_text_buffer := [] }
    else s
  { s1 with cursor_pos := ((activeBufferString s1).length : Int) }

/-- Method `down` (lines 253-263): move the history pointer towards newer
entries, recursing while a skipped entry is not the last one. -/
def down (s : InputState) : InputState :=
  let t :=
    if s.hist_ptr < (s.history.length : Int) - 1 ∧
        ((pyIdx s.history (s.hist_ptr + 1)).length : Int) ≤ s.bound then
      { s with hist_ptr := s.hist_ptr + 1 }
    else
      let t1 := { s with hist_ptr := s.hist_ptr + 1 }
      if t1.hist_ptr < (t1.history.length : Int) - 1 then down t1 else t1
  downRestore t
termination_by ((s.history.length : Int) - s.hist_ptr).toNat
decreasing_by
  simp only [InputState.hist_ptr, InputState.history] at *
  omega

/-- Method `left` (lines 265-266). -/
def left (s : InputState) : InputState := { s with cursor_pos := s.cursor_pos - 1 }

/-- Method `_accept_history_match` (lines 289-291): append the suggestion's
text past the cursor to the edit buffer, cursor to the new end. -/
def acceptHistoryMatch (s : InputState) : InputState :=
  let s1 := { s with
    text_buffer := s.text_buffer ++ (pySliceFrom s.autocomplete_buffer s.cursor_pos).toList }
  { s1 with cursor_pos := (s1.text_buffer.length : Int) }

/-- Method `right` (lines 268-272). -/
def right (s : InputState) : InputState :=
  if s.match_index > -1 then acceptHistoryMatch s
  else { s with cursor_pos := s.cursor_pos + 1 }

/-- Method `_load_history_matches` (lines 274-276): history entries that start
with the active text and fit the bound, most recent first. -/
def loadHistoryMatches (s : InputState) : InputState :=
  let hm := (s.history.filter (fun e =>
      pyStartsWith e (activeBufferString s) && decide ((e.length : Int) ≤ s.bound))).map
      String.toList
  { s with history_matches := hm.reverse }

/-- Method `_next_history_match` (lines 278-281). -/
def nextHistoryMatch (s : InputState) : InputState :=
  if s.matches' ≠ [] then
    let idx := (s.match_index + 1) % (s.matches'.length : Int)
    { s with match_index := idx, autocomplete_buffer := pyIdx s.matches' idx }
  else s

/-- Method `_prev_history_match` (lines 283-287).  Note the assignment
`self.matches' = self.history_matches[self.match_index][len(self.text_buffer):]`
slices a list of characters, so `matches` becomes a list of one-character
strings. -/
def prevHistoryMatch (s : InputState) : InputState :=
  if s.history_matches ≠ [] then
    let s1 := { s with match_index := (s.match_index - 1) % (s.history_matches.length : Int) }
    let s2 := pullHistoryToCurrent s1
    { s2 with matches' :=
        (((pyIdx s2.history_matches s2.match_index).drop s2.text_buffer.length).map
          (fun c => String.mk [c])) }
  else s

/-- Method `_clear_history_matches` (lines 293-296). -/
def clearHistoryMatches (s : InputState) : InputState :=
  { s with match_index := -1, matches' := [], history_matches := [] }

/-- Method `_clear_matches` (lines 298-301). -/
def clearMatches (s : InputState) : InputState :=
  { s with autocomplete_buffer := "", matches' := [], match_index := -1 }

/-- Method `_filter_autocomplete` (lines 310-319): append to `matches` every
candidate (history-derived, then extended) whose text starts with the
active text. -/
def filterAutocomplete (s : InputState) : InputState :=
  let possible :=
    (if s.history_matches ≠ [] then s.history_matches else []) ++
    (if s.extended_matches ≠ [] then s.extended_matches else [])
  { s with matches' := (s.matches' ++
      (possible.filter (fun pm => pyStartsWith (String.mk pm) (activeBufferString s))).map
        String.mk) }

/-- Method `init_autocomplete` (lines 340-342). -/
def initAutocomplete (s : InputState) : InputState :=
  loadHistoryMatches (clearHistoryMatches s)

/-- Method `history_autocomplete` (lines 344-351). -/
def historyAutocomplete (s : InputState) (changed : Bool) (direction : Int) : InputState :=
  if s.history_matches ≠ [] then
    let s1 := if changed then filterAutocomplete (clearMatches s) else s
    if direction = 1 then nextHistoryMatch s1 else prevHistoryMatch s1
  else s

/-- Symbolic key events consumed by the `get_input` loop
(lines 368-421): the decoded forms of the raw key codes the source
dispatches on (`10/13`, `27`, `KEY_BACKSPACE`, `KEY_DC`, `KEY_UP`,
`KEY_DOWN`, `KEY_LEFT`, `KEY_RIGHT`, `KEY_HOME`, `KEY_END`, `9`,
`KEY_BTAB`, and any other code as a printable character). -/
inductive Key where
  | enter | esc | backspace | del | histUp | histDown | left | right
  | home | endKey | tab | btab
  | char (c : Char)
deriving Repr, DecidableEq

/-- Result of one loop iteration: continue looping, `break` out to the
commit tail, `return` a result directly, or raise (see `backspace`). -/
inductive StepRes where
  | cont (s : InputState)
  | broke (s : InputState)
  | exit (r : String) (s : InputState)
  | crash
deriving Repr, DecidableEq

/-- One iteration of the `Input.get_input` event loop (lines 368-423),
translated branch by branch.  The `bound <= 0` early return (line 370)
runs before any key is dispatched; `_draw_text_buffer` is rendering
only and is omitted. -/
def step (s : InputState) (k : Key) : StepRes :=
  if s.bound ≤ 0 then .exit "" s
  else
    match k with
    | .enter =>
        if s.hist_ptr ≠ (s.history.length : Int) ∧ s.saved_text_buffer ≠ [] then
          .cont { s with hist_ptr := (s.history.length : Int),
                         cursor_pos := min (s.saved_text_buffer.length : Int) s.bound }
        else
          let s1 := pullHistoryToCurrent s
          .broke { s1 with hist_ptr := (s1.history.length : Int) }
    | .esc =>
        if s.matches' ≠ [] then .cont (clearMatches s)
        else if s.hist_ptr ≠ (s.history.length : Int) then
          .cont { s with hist_ptr := (s.history.length : Int), cursor_pos := 0 }
        else .exit "" s
    | .backspace =>
        if 0 < s.cursor_pos then
          match backspace s with
          | some s1 => .cont (historyAutocomplete s1 true 1)
          | none => .crash
        else .cont s
    | .del =>
        if s.cursor_pos < ((activeBufferString s).length : Int) then
          match deleteChar s with
          | some s1 => .cont s1
          | none => .crash
        else .cont s
    | .histUp => if 0 < s.hist_ptr then .cont (up s) else .cont s
    | .histDown =>
        if s.hist_ptr < (s.history.length : Int) then .cont (down s) else .cont s
    | .left => if 0 < s.cursor_pos then .cont (left s) else .cont s
    | .right =>
        if (s.cursor_pos < s.bound ∧ s.cursor_pos < ((activeBufferString s).length : Int))
            ∨ s.matches' ≠ [] then
          .cont (right s)
        else .cont s
    | .home => .cont { s with cursor_pos := 0 }
    | .endKey =>
        .cont { s with cursor_pos := min ((activeBufferString s).length : Int) s.bound }
    | .tab => .cont (historyAutocomplete s false 1)
    | .btab => .cont (historyAutocomplete s false (-1))
    | .char c =>
        let s1 := pullHistoryToCurrent s
        let s2 :=
          if s1.cursor_pos < s1.bound then
            { s1 with text_buffer := pyInsertAt s1.text_buffer s1.cursor_pos c,
                      cursor_pos := s1.cursor_pos + 1 }
          else s1
        .cont (historyAutocomplete s2 true 1)

/-- The tail of `Input.get_input` after the loop ends (lines 425-434):
join the buffer; a non-empty result is appended to the history file and
returned, otherwise the default is appended and returned. -/
def commitFinal (s : InputState) : String × InputState :=
  let finput := String.mk s.text_buffer
  if finput ≠ "" then (finput, { s with hist_file := s.hist_file ++ [finput] })
  else (s.dflt, { s with hist_file := s.hist_file ++ [s.dflt] })

/-- Result of running the loop on a list of key events: still waiting
for the next key, returned with a result, or raised. -/
inductive RunRes where
  | pending (s : InputState)
  | done (r : String) (s : InputState)
  | crash
deriving Repr, DecidableEq

/-- The `get_input` loop over a finite list of key events.  The loop
head `while (key := self.win.getch()):` (line 368) tests the raw key
code for truthiness before the body runs: a key code of 0 (NUL,
decoded as `Key.char (Char.ofNat 0)`) ends the loop without entering
the body, and the commit tail runs — the same path as `break`. -/
def runInput (s : InputState) : List Key → RunRes
  | [] => .pending s
  | k :: ks =>
    if k = Key.char (Char.ofNat 0) then .done (commitFinal s).1 (commitFinal s).2
    else
      match step s k with
      | .cont s1 => runInput s1 ks
      | .broke s1 => .done (commitFinal s1).1 (commitFinal s1).2
      | .exit r s1 => .done r s1
      | .crash => .crash

/-- The state built by `Input.__init__` (lines 167-188): `history` is
what `_read_history_file` loaded, i.e. the current contents of the
persisted history file. -/
def initState (history : List String) (dflt : String) (bound : Int) : InputState :=
  { history := history, bound := bound, dflt := dflt,
    text_buffer := [], cursor_pos := 0, hist_ptr := (history.length : Int),
    saved_text_buffer := [], history_matches := [], extended_matches := [],
    matches' := [], match_index := -1, autocomplete_buffer := "",
    hist_file := history }

/-- Method `Input.get_input` on a session freshly constructed by `__init__`:
`init_autocomplete` (line 366) and then the event loop. -/
def getInput (history : List String) (dflt : String) (bound : Int) (ks : List Key) : RunRes :=
  runInput (initAutocomplete (initState history dflt bound)) ks

/-- The session state carried by a (non-crashed) run result. -/
def resState : RunRes → Option InputState
  | .pending s => some s
  | .done _ s => some s
  | .crash => none

/-- The tail of the outer `CommandWindow.get_input` (lines 148-156):
with `bound <= 0` it returns `""`, otherwise a non-empty inner result,
otherwise the default. -/
def commandWindowResult (bound : Int) (finput : String) (dflt : String) : String :=
  if bound ≤ 0 then "" else if finput ≠ "" then finput else dflt


/-! ## Basic lemmas about the Python-semantics helpers -/

theorem pyInsertAt_length {α : Type} (l : List α) (i : Int) (a : α) :
    (pyInsertAt l i a).length = l.length + 1 := by
  unfold pyInsertAt
  split <;> simp <;> omega

theorem pyInsertAt_of_le (l : List α) (i : Int) (a : α)
    (h0 : 0 ≤ i) (h1 : i ≤ (l.length : Int)) :
    pyInsertAt l i a = l.take i.toNat ++ a :: l.drop i.toNat := by
  unfold pyInsertAt
  split
  · omega
  · have : min i (l.length : Int) = i := by omega
    rw [this]

theorem pyInsertAt_append (l : List α) (a : α) :
    pyInsertAt l (l.length : Int) a = l ++ [a] := by
  rw [pyInsertAt_of_le l _ a (by omega) (by omega)]
  simp

theorem pyPop_of_range (l : List α) (i : Int) (h0 : 0 ≤ i) (h1 : i < (l.length : Int)) :
    pyPop l i = some (l.take i.toNat ++ l.drop (i.toNat + 1)) := by
  unfold pyPop
  have : ¬ i < 0 := by omega
  simp only [this, if_false]
  rw [if_pos ⟨h0, h1⟩]

theorem pyPop_some_length {l l' : List α} {i : Int} (h : pyPop l i = some l') :
    l'.length + 1 = l.length := by
  unfold pyPop at h
  generalize hj : (if i < 0 then (l.length : Int) + i else i) = j at h
  dsimp only [] at h
  split at h
  · rename_i hr
    injection h with h
    subst h
    simp only [List.length_append, List.length_take, List.length_drop]
    omega
  · simp at h

theorem string_mk_length (l : List Char) : (String.mk l).length = l.length := rfl

theorem string_mk_toList (l : List Char) : (String.mk l).toList = l := rfl

theorem pySliceFrom_toList_of_nonneg (str : String) (i : Int) (h : 0 ≤ i) :
    (pySliceFrom str i).toList = str.toList.drop i.toNat := by
  unfold pySliceFrom
  split
  · omega
  · rfl

/-! ## Closed forms and frame lemmas for the state operations -/

theorem captureSaved_eq (s : InputState) :
    captureSaved s = { s with saved_text_buffer :=
      (if s.saved_text_buffer = [] then s.text_buffer else s.saved_text_buffer) } := by
  unfold captureSaved
  split <;> rfl

theorem captureSaved_of_saved_eq_text (x : InputState)
    (h : x.saved_text_buffer = x.text_buffer) : captureSaved x = x := by
  cases x
  unfold captureSaved
  split <;> simp_all

theorem captureSaved_of_ne (x : InputState) (h : x.saved_text_buffer ≠ []) :
    captureSaved x = x := by
  unfold captureSaved
  rw [if_neg h]

theorem captureSaved_stable (s : InputState) (p : Int) :
    captureSaved { captureSaved s with hist_ptr := p } = { captureSaved s with hist_ptr := p } := by
  by_cases h : s.saved_text_buffer = []
  · rw [captureSaved_eq s, if_pos h]
    exact captureSaved_of_saved_eq_text _ rfl
  · rw [captureSaved_of_ne s h]
    exact captureSaved_of_ne _ h

theorem pull_of_lt (s : InputState) (h : s.hist_ptr < (s.history.length : Int)) :
    pullHistoryToCurrent s = { s with saved_text_buffer := [],
                                      text_buffer := (pyIdx s.history s.hist_ptr).toList,
                                      hist_ptr := (s.history.length : Int) } := by
  unfold pullHistoryToCurrent
  rw [if_pos h]

theorem pull_of_ge (s : InputState) (h : ¬ s.hist_ptr < (s.history.length : Int)) :
    pullHistoryToCurrent s = s := by
  unfold pullHistoryToCurrent
  rw [if_neg h]

theorem downRestore_eq (s : InputState) :
    downRestore s =
      (if s.saved_text_buffer ≠ [] ∧ s.hist_ptr = (s.history.length : Int) then
        { s with text_buffer := s.saved_text_buffer,
                 saved_text_buffer := [],
                 cursor_pos := (s.saved_text_buffer.length : Int) }
      else { s with cursor_pos := ((activeBufferString s).length : Int) }) := by
  unfold downRestore
  by_cases h : s.saved_text_buffer ≠ [] ∧ s.hist_ptr = (s.history.length : Int)
  · obtain ⟨h1, h2⟩ := h
    rw [if_pos ⟨h1, h2⟩, if_pos ⟨h1, h2⟩]
    dsimp only []
    have hact : activeBufferString
        { s with text_buffer := s.saved_text_buffer, saved_text_buffer := [] }
        = String.mk s.saved_text_buffer := by
      unfold activeBufferString
      rw [if_neg (by simp only []; omega)]
    rw [hact, string_mk_length]
  · rw [if_neg h, if_neg h]

theorem captureSaved_cursor (s : InputState) :
    (captureSaved s).cursor_pos = s.cursor_pos := by
  unfold captureSaved; split <;> rfl

theorem captureSaved_history (s : InputState) :
    (captureSaved s).history = s.history := by
  unfold captureSaved; split <;> rfl

theorem captureSaved_bound (s : InputState) :
    (captureSaved s).bound = s.bound := by
  unfold captureSaved; split <;> rfl

theorem captureSaved_text (s : InputState) :
    (captureSaved s).text_buffer = s.text_buffer := by
  unfold captureSaved; split <;> rfl

theorem captureSaved_saved (s : InputState) :
    (captureSaved s).saved_text_buffer =
      (if s.saved_text_buffer = [] then s.text_buffer else s.saved_text_buffer) := by
  unfold captureSaved
  split <;> simp [*]

theorem activeBufferString_cursor (s : InputState) (c : Int) :
    activeBufferString { s with cursor_pos := c } = activeBufferString s := rfl

theorem downRestore_idem (s : InputState) :
    downRestore (downRestore s) = downRestore s := by
  rw [downRestore_eq s]
  by_cases h : s.saved_text_buffer ≠ [] ∧ s.hist_ptr = (s.history.length : Int)
  · obtain ⟨h1, h2⟩ := h
    rw [if_pos ⟨h1, h2⟩, downRestore_eq, if_neg (by simp)]
    have hact : activeBufferString
        { s with text_buffer := s.saved_text_buffer, saved_text_buffer := [],
                 cursor_pos := (s.saved_text_buffer.length : Int) }
        = String.mk s.saved_text_buffer := by
      unfold activeBufferString
      rw [if_neg (by simp only []; omega)]
    rw [hact, string_mk_length]
  · rw [if_neg h, downRestore_eq, if_neg (by exact h)]
    rw [activeBufferString_cursor]
    rfl

/-- Closed form of `up`: it only captures the saved draft and then
rewrites the history pointer and (possibly) the cursor.  The pointer
strictly decreases, stays `≥ -1` when starting from a positive pointer,
and is exactly decremented otherwise; the cursor is either untouched or
set to a (non-negative) text length. -/
theorem up_shape (s : InputState) :
    ∃ p c : Int,
      up s = { captureSaved s with hist_ptr := p, cursor_pos := c } ∧
      p < s.hist_ptr ∧ (0 < s.hist_ptr → -1 ≤ p) ∧ (s.hist_ptr ≤ 0 → p = s.hist_ptr - 1) ∧
      (c = s.cursor_pos ∨ 0 ≤ c) := by
  suffices H : ∀ n (s : InputState), s.hist_ptr.toNat = n →
      ∃ p c : Int,
        up s = { captureSaved s with hist_ptr := p, cursor_pos := c } ∧
        p < s.hist_ptr ∧ (0 < s.hist_ptr → -1 ≤ p) ∧ (s.hist_ptr ≤ 0 → p = s.hist_ptr - 1) ∧
        (c = s.cursor_pos ∨ 0 ≤ c) by
    exact H _ s rfl
  intro n
  induction n using Nat.strong_induction_on with
  | _ n ih =>
    intro s hn
    rw [up.eq_def]
    dsimp only []
    by_cases h1 : 0 < (captureSaved s).hist_ptr ∧
        ((pyIdx (captureSaved s).history ((captureSaved s).hist_ptr - 1)).length : Int) ≤
          (captureSaved s).bound
    · rw [if_pos h1]
      have hp := captureSaved_hist_ptr s
      refine ⟨(captureSaved s).hist_ptr - 1, _, rfl, by omega, by omega, ?_,
        Or.inr (Int.natCast_nonneg _)⟩
      intro h0
      omega
    · rw [if_neg h1]
      by_cases h2 : 0 < (captureSaved s).hist_ptr
      · rw [if_pos h2]
        have hp := captureSaved_hist_ptr s
        have hm : ({ captureSaved s with hist_ptr := (captureSaved s).hist_ptr - 1 }
            : InputState).hist_ptr.toNat < n := by
          simp only []
          omega
        obtain ⟨p, c, heq, hlt, hge, hle, hc⟩ := ih _ hm _ rfl
        rw [captureSaved_stable] at heq
        simp only [captureSaved_hist_ptr, captureSaved_cursor] at hlt hge hle hc
        refine ⟨p, c, ?_, by omega, by omega, by omega, ?_⟩
        · rw [heq]
        · exact hc
      · rw [if_neg h2]
        have hp := captureSaved_hist_ptr s
        refine ⟨(captureSaved s).hist_ptr - 1, (captureSaved s).cursor_pos, rfl,
          by omega, by omega, by omega, Or.inl (captureSaved_cursor s)⟩

/-- Closed form of `down`: its recursion only advances the history
pointer (strictly, and never past `len(history)`) before the single
effective `downRestore` pass. -/
theorem down_shape (s : InputState) (h : s.hist_ptr < (s.history.length : Int)) :
    ∃ p : Int, down s = downRestore { s with hist_ptr := p } ∧
      s.hist_ptr < p ∧ p ≤ (s.history.length : Int) := by
  suffices H : ∀ n (s : InputState), ((s.history.length : Int) - s.hist_ptr).toNat = n →
      s.hist_ptr < (s.history.length : Int) →
      ∃ p : Int, down s = downRestore { s with hist_ptr := p } ∧
        s.hist_ptr < p ∧ p ≤ (s.history.length : Int) by
    exact H _ s rfl h
  intro n
  induction n using Nat.strong_induction_on with
  | _ n ih =>
    intro s hn hlt
    rw [down.eq_def]
    dsimp only []
    by_cases h1 : s.hist_ptr < (s.history.length : Int) - 1 ∧
        ((pyIdx s.history (s.hist_ptr + 1)).length : Int) ≤ s.bound
    · rw [if_pos h1]
      exact ⟨s.hist_ptr + 1, rfl, by omega, by omega⟩
    · rw [if_neg h1]
      by_cases h2 : s.hist_ptr + 1 < (s.history.length : Int) - 1
      · rw [if_pos h2]
        obtain ⟨p, heq, hp1, hp2⟩ :=
          ih (((s.history.length : Int) - (s.hist_ptr + 1)).toNat) (by omega)
            { s with hist_ptr := s.hist_ptr + 1 } rfl (by simp only []; omega)
        simp only [] at hp1 hp2
        rw [heq, downRestore_idem]
        exact ⟨p, rfl, by omega, by omega⟩
      · rw [if_neg h2]
        exact ⟨s.hist_ptr + 1, rfl, by omega, by omega⟩

theorem historyAutocomplete_one_shape (s : InputState) (changed : Bool) :
    ∃ (m : List String) (i : Int) (a : String),
      historyAutocomplete s changed 1 =
        { s with matches' := m, match_index := i, autocomplete_buffer := a } := by
  unfold historyAutocomplete
  split
  · rw [if_pos (show (1 : Int) = 1 from rfl)]
    have hshape : ∀ x : InputState,
        (∃ (m : List String) (i : Int) (a : String),
          x = { s with matches' := m, match_index := i, autocomplete_buffer := a }) →
        ∃ (m : List String) (i : Int) (a : String),
          nextHistoryMatch x =
            { s with matches' := m, match_index := i, autocomplete_buffer := a } := by
      rintro x ⟨m, i, a, rfl⟩
      unfold nextHistoryMatch
      split
      · exact ⟨_, _, _, rfl⟩
      · exact ⟨m, i, a, rfl⟩
    apply hshape
    by_cases hch : changed
    · rw [if_pos hch]
      unfold filterAutocomplete clearMatches
      exact ⟨_, _, _, rfl⟩
    · rw [if_neg hch]
      exact ⟨s.matches', s.match_index, s.autocomplete_buffer, rfl⟩
  · exact ⟨s.matches', s.match_index, s.autocomplete_buffer, rfl⟩

theorem emod_pos_nonneg (a : Int) (n : Nat) (h : n ≠ 0) : 0 ≤ a % (n : Int) :=
  Int.emod_nonneg a (by exact_mod_cast h)

theorem nextHistoryMatch_matchIdx (x : InputState) :
    (nextHistoryMatch x).matches' ≠ [] → -1 < (nextHistoryMatch x).match_index := by
  unfold nextHistoryMatch
  split
  · rename_i hne
    intro _
    have := emod_pos_nonneg (x.match_index + 1) x.matches'.length (by simpa using hne)
    simp only []
    omega
  · rename_i hemp
    intro hne2
    exact absurd hne2 hemp

theorem historyAutocomplete_one_matchIdx (s : InputState) (changed : Bool)
    (h : s.matches' ≠ [] → -1 < s.match_index) :
    (historyAutocomplete s changed 1).matches' ≠ [] →
      -1 < (historyAutocomplete s changed 1).match_index := by
  unfold historyAutocomplete
  split
  · rw [if_pos (show (1 : Int) = 1 from rfl)]
    exact nextHistoryMatch_matchIdx _
  · exact h

theorem prevHistoryMatch_shape (s : InputState) :
    prevHistoryMatch s = s ∨
    ∃ (m : List String) (i : Int),
      0 ≤ i ∧
      ((¬ s.hist_ptr < (s.history.length : Int) ∧
        prevHistoryMatch s = { s with matches' := m, match_index := i }) ∨
       (s.hist_ptr < (s.history.length : Int) ∧
        prevHistoryMatch s = { s with matches' := m, match_index := i,
                                      text_buffer := (pyIdx s.history s.hist_ptr).toList,
                                      saved_text_buffer := [],
                                      hist_ptr := (s.history.length : Int) })) := by
  unfold prevHistoryMatch
  split
  · rename_i hne
    right
    dsimp only []
    by_cases hp : s.hist_ptr < (s.history.length : Int)
    · rw [pull_of_lt _ (by simpa using hp)]
      refine ⟨_, _, emod_pos_nonneg _ _ (by simpa using hne), Or.inr ⟨hp, rfl⟩⟩
    · rw [pull_of_ge _ (by simpa using hp)]
      refine ⟨_, _, emod_pos_nonneg _ _ (by simpa using hne), Or.inl ⟨hp, rfl⟩⟩
  · left; rfl

theorem historyAutocomplete_negdir (s : InputState) :
    historyAutocomplete s false (-1) = s ∨
    historyAutocomplete s false (-1) = prevHistoryMatch s := by
  unfold historyAutocomplete
  split
  · right
    rw [if_neg (by norm_num), if_neg (by norm_num)]
  · left; rfl

/-! ## Running the event loop: generic invariant preservation -/

/-- The session state carried by a step result (none on a raised
exception). -/
def stepState : StepRes → Option InputState
  | .cont s => some s
  | .broke s => some s
  | .exit _ s => some s
  | .crash => none

/-- Any state-predicate `P` preserved by every step over keys satisfying
`A` (and by the commit tail) holds at the end of every run. -/
theorem run_inv (P : InputState → Prop) (A : Key → Prop)
    (hstep : ∀ s k s', P s → A k → stepState (step s k) = some s' → P s')
    (hfile : ∀ s, P s → P (commitFinal s).2) :
    ∀ (ks : List Key) (s s' : InputState), P s → (∀ k ∈ ks, A k) →
      resState (runInput s ks) = some s' → P s' := by
  intro ks
  induction ks with
  | nil =>
    intro s s' hP _ hres
    unfold runInput at hres
    simp only [resState, Option.some.injEq] at hres
    rwa [← hres]
  | cons k ks ihk =>
    intro s s' hP hA hres
    unfold runInput at hres
    by_cases hk : k = Key.char (Char.ofNat 0)
    case pos =>
      rw [if_pos hk] at hres
      simp only [resState, Option.some.injEq] at hres
      rw [← hres]
      exact hfile s hP
    rw [if_neg hk] at hres
    cases hst : step s k with
    | cont s1 =>
      rw [hst] at hres
      exact ihk s1 s' (hstep s k s1 hP (hA k (by simp)) (by rw [hst]; rfl))
        (fun k2 hk2 => hA k2 (by simp [hk2])) hres
    | broke s1 =>
      rw [hst] at hres
      simp only [resState, Option.some.injEq] at hres
      rw [← hres]
      exact hfile s1 (hstep s k s1 hP (hA k (by simp)) (by rw [hst]; rfl))
    | exit r s1 =>
      rw [hst] at hres
      simp only [resState, Option.some.injEq] at hres
      rw [← hres]
      exact hstep s k s1 hP (hA k (by simp)) (by rw [hst]; rfl)
    | crash =>
      rw [hst] at hres
      simp [resState] at hres

/-- Variant for key classes that always continue the loop: the run ends
pending with the invariant. -/
theorem run_cont (P : InputState → Prop) (A : Key → Prop)
    (hstep : ∀ s k, P s → A k → ∃ s1, step s k = .cont s1 ∧ P s1)
    (hnul : ∀ k, A k → k ≠ Key.char (Char.ofNat 0)) :
    ∀ (ks : List Key) (s : InputState), P s → (∀ k ∈ ks, A k) →
      ∃ s', runInput s ks = .pending s' ∧ P s' := by
  intro ks
  induction ks with
  | nil =>
    intro s hP _
    exact ⟨s, rfl, hP⟩
  | cons k ks ihk =>
    intro s hP hA
    obtain ⟨s1, hst, hP1⟩ := hstep s k hP (hA k (by simp))
    obtain ⟨s', hrun, hP'⟩ := ihk s1 hP1 (fun k2 hk2 => hA k2 (by simp [hk2]))
    refine ⟨s', ?_, hP'⟩
    unfold runInput
    rw [if_neg (hnul k (hA k (by simp))), hst]
    exact hrun

/-! ## The base invariant: pointer range and cursor lower bound -/

/-- Invariant maintained by every event: the history pointer stays in
`[-1, len(history)]` (note `-1`, not `0`: `up` can step past index 0
when every older entry exceeds the bound) and the cursor is never
negative. -/
def BaseInv (s : InputState) : Prop :=
  -1 ≤ s.hist_ptr ∧ s.hist_ptr ≤ (s.history.length : Int) ∧ 0 ≤ s.cursor_pos

theorem baseInv_commitFinal (s : InputState) (h : BaseInv s) :
    BaseInv (commitFinal s).2 := by
  unfold commitFinal
  dsimp only []
  split
  · exact h
  · exact h

theorem backspace_some {s s1 : InputState} (h : backspace s = some s1) :
    ∃ tb : List Char,
      pyPop (pullHistoryToCurrent s).text_buffer
        ((pullHistoryToCurrent s).cursor_pos - 1) = some tb ∧
      s1 = { pullHistoryToCurrent s with
             cursor_pos := (pullHistoryToCurrent s).cursor_pos - 1,
             text_buffer := tb } := by
  unfold backspace at h
  dsimp only [] at h
  cases hpp : pyPop (pullHistoryToCurrent s).text_buffer
      ((pullHistoryToCurrent s).cursor_pos - 1) with
  | none => rw [hpp] at h; simp at h
  | some tb =>
    rw [hpp] at h
    simp only [Option.map_some', Option.some.injEq] at h
    exact ⟨tb, rfl, h.symm⟩

theorem deleteChar_some {s s1 : InputState} (h : deleteChar s = some s1) :
    ∃ tb : List Char,
      pyPop (pullHistoryToCurrent s).text_buffer (pullHistoryToCurrent s).cursor_pos
        = some tb ∧
      (s1 = { pullHistoryToCurrent s with text_buffer := tb } ∨
      (s1 = { pullHistoryToCurrent s with
              text_buffer := tb,
              cursor_pos := (pullHistoryToCurrent s).cursor_pos - 1 } ∧
        (pullHistoryToCurrent s).cursor_pos =
          ((activeBufferString { pullHistoryToCurrent s with text_buffer := tb }).length
            : Int) + 1)) := by
  unfold deleteChar at h
  dsimp only [] at h
  cases hpp : pyPop (pullHistoryToCurrent s).text_buffer
      (pullHistoryToCurrent s).cursor_pos with
  | none => rw [hpp] at h; simp at h
  | some tb =>
    rw [hpp] at h
    simp only [Option.map_some', Option.some.injEq] at h
    refine ⟨tb, rfl, ?_⟩
    split at h
    · rename_i hc
      exact Or.inr ⟨h.symm, hc⟩
    · exact Or.inl h.symm

theorem downRestore_baseInv (x : InputState)
    (h : -1 ≤ x.hist_ptr ∧ x.hist_ptr ≤ (x.history.length : Int)) :
    BaseInv (downRestore x) := by
  rw [downRestore_eq]
  split
  · exact ⟨by simp only []; omega, by simp only []; omega,
      by simp only []; exact Int.natCast_nonneg _⟩
  · exact ⟨by simp only []; omega, by simp only []; omega,
      by simp only []; exact Int.natCast_nonneg _⟩

theorem baseInv_step (s : InputState) (k : Key) (s' : InputState)
    (hInv : BaseInv s) (hres : stepState (step s k) = some s') : BaseInv s' := by
  obtain ⟨h1, h2, h3⟩ := hInv
  unfold step at hres
  by_cases hb : s.bound ≤ 0
  · rw [if_pos hb] at hres
    simp only [stepState, Option.some.injEq] at hres
    subst hres
    exact ⟨h1, h2, h3⟩
  · rw [if_neg hb] at hres
    cases k with
    | enter =>
      dsimp only [] at hres
      split at hres
      · simp only [stepState, Option.some.injEq] at hres
        subst hres
        refine ⟨by simp only []; omega, by simp only []; omega, by simp only []; omega⟩
      · simp only [stepState, Option.some.injEq] at hres
        subst hres
        by_cases hp : s.hist_ptr < (s.history.length : Int)
        · rw [pull_of_lt s hp]
          refine ⟨by simp only []; omega, by simp only []; omega, by simp only []; omega⟩
        · rw [pull_of_ge s hp]
          refine ⟨by simp only []; omega, by simp only []; omega, by simp only []; omega⟩
    | esc =>
      dsimp only [] at hres
      split at hres
      · simp only [stepState, Option.some.injEq] at hres
        subst hres
        exact ⟨h1, h2, h3⟩
      · split at hres
        · simp only [stepState, Option.some.injEq] at hres
          subst hres
          refine ⟨by simp only []; omega, by simp only []; omega, by simp only []; omega⟩
        · simp only [stepState, Option.some.injEq] at hres
          subst hres
          exact ⟨h1, h2, h3⟩
    | backspace =>
      dsimp only [] at hres
      split at hres
      · rename_i hcur
        cases hbs : backspace s with
        | none => rw [hbs] at hres; simp [stepState] at hres
        | some s1 =>
          rw [hbs] at hres
          simp only [stepState, Option.some.injEq] at hres
          subst hres
          obtain ⟨m, i, a, hsh⟩ := historyAutocomplete_one_shape s1 true
          rw [hsh]
          obtain ⟨tb, hpp, hs1⟩ := backspace_some hbs
          subst hs1
          by_cases hp : s.hist_ptr < (s.history.length : Int)
          · rw [pull_of_lt s hp]
            refine ⟨by simp only []; omega, by simp only []; omega, by simp only []; omega⟩
          · rw [pull_of_ge s hp]
            refine ⟨by simp only []; omega, by simp only []; omega, by simp only []; omega⟩
      · simp only [stepState, Option.some.injEq] at hres
        subst hres
        exact ⟨h1, h2, h3⟩
    | del =>
      dsimp only [] at hres
      split at hres
      · rename_i hcur
        cases hds : deleteChar s with
        | none => rw [hds] at hres; simp [stepState] at hres
        | some s1 =>
          rw [hds] at hres
          simp only [stepState, Option.some.injEq] at hres
          subst hres
          obtain ⟨tb, hpp, hs1⟩ := deleteChar_some hds
          rcases hs1 with hs1 | ⟨hs1, hlen⟩ <;> subst hs1 <;>
            by_cases hp : s.hist_ptr < (s.history.length : Int)
          · rw [pull_of_lt s hp]
            refine ⟨by simp only []; omega, by simp only []; omega, by simp only []; omega⟩
          · rw [pull_of_ge s hp]
            refine ⟨by simp only []; omega, by simp only []; omega, by simp only []; omega⟩
          · rw [pull_of_lt s hp] at hlen ⊢
            simp only [] at hlen
            refine ⟨by simp only []; omega, by simp only []; omega, by simp only []; omega⟩
          · rw [pull_of_ge s hp] at hlen ⊢
            simp only [] at hlen
            refine ⟨by simp only []; omega, by simp only []; omega, by simp only []; omega⟩
      · simp only [stepState, Option.some.injEq] at hres
        subst hres
        exact ⟨h1, h2, h3⟩
    | histUp =>
      dsimp only [] at hres
      split at hres
      · rename_i hptr
        simp only [stepState, Option.some.injEq] at hres
        subst hres
        obtain ⟨p, c, heq, hlt, hge, _, hc⟩ := up_shape s
        rw [heq]
        have hh := captureSaved_history s
        refine ⟨by simp only []; omega, ?_, ?_⟩
        · simp only [hh]
          omega
        · rcases hc with hcl | hcr
          · simp only [captureSaved_cursor]
            omega
          · simp only []
            omega
      · simp only [stepState, Option.some.injEq] at hres
        subst hres
        exact ⟨h1, h2, h3⟩
    | histDown =>
      dsimp only [] at hres
      split at hres
      · rename_i hptr
        simp only [stepState, Option.some.injEq] at hres
        subst hres
        obtain ⟨p, heq, hp1, hp2⟩ := down_shape s hptr
        rw [heq]
        exact downRestore_baseInv _ ⟨by simp only []; omega, by simp only []; omega⟩
      · simp only [stepState, Option.some.injEq] at hres
        subst hres
        exact ⟨h1, h2, h3⟩
    | left =>
      dsimp only [] at hres
      split at hres
      · rename_i hcur
        simp only [stepState, Option.some.injEq] at hres
        subst hres
        unfold left
        refine ⟨by simp only []; omega, by simp only []; omega, by simp only []; omega⟩
      · simp only [stepState, Option.some.injEq] at hres
        subst hres
        exact ⟨h1, h2, h3⟩
    | right =>
      dsimp only [] at hres
      split at hres
      · simp only [stepState, Option.some.injEq] at hres
        subst hres
        unfold right
        split
        · unfold acceptHistoryMatch
          dsimp only []
          refine ⟨by simp only []; omega, by simp only []; omega,
            by simp only []; exact Int.natCast_nonneg _⟩
        · refine ⟨by simp only []; omega, by simp only []; omega, by simp only []; omega⟩
      · simp only [stepState, Option.some.injEq] at hres
        subst hres
        exact ⟨h1, h2, h3⟩
    | home =>
      simp only [stepState, Option.some.injEq] at hres
      subst hres
      refine ⟨by simp only []; omega, by simp only []; omega, by simp only []; omega⟩
    | endKey =>
      simp only [stepState, Option.some.injEq] at hres
      subst hres
      refine ⟨by simp only []; omega, by simp only []; omega, by simp only []; omega⟩
    | tab =>
      simp only [stepState, Option.some.injEq] at hres
      subst hres
      obtain ⟨m, i, a, hsh⟩ := historyAutocomplete_one_shape s false
      rw [hsh]
      exact ⟨h1, h2, h3⟩
    | btab =>
      simp only [stepState, Option.some.injEq] at hres
      subst hres
      rcases historyAutocomplete_negdir s with heq | heq <;> rw [heq]
      · exact ⟨h1, h2, h3⟩
      · rcases prevHistoryMatch_shape s with hps | ⟨m, i, hi, ⟨hc, hps⟩ | ⟨hc, hps⟩⟩ <;> rw [hps]
        · exact ⟨h1, h2, h3⟩
        · exact ⟨h1, h2, h3⟩
        · refine ⟨by simp only []; omega, by simp only []; omega, by simp only []; omega⟩
    | char c =>
      dsimp only [] at hres
      simp only [stepState, Option.some.injEq] at hres
      subst hres
      have hbase : BaseInv (pullHistoryToCurrent s) ∧
          (pullHistoryToCurrent s).cursor_pos = s.cursor_pos := by
        by_cases hp : s.hist_ptr < (s.history.length : Int)
        · rw [pull_of_lt s hp]
          exact ⟨⟨by simp only []; omega, by simp only []; omega, by simp only []; omega⟩, rfl⟩
        · rw [pull_of_ge s hp]
          exact ⟨⟨h1, h2, h3⟩, rfl⟩
      obtain ⟨⟨hb1, hb2, hb3⟩, hbc⟩ := hbase
      split
      · rename_i hlt
        obtain ⟨m, i, a, hsh⟩ := historyAutocomplete_one_shape _ true
        rw [hsh]
        refine ⟨by simp only []; omega, by simp only []; omega, by simp only []; omega⟩
      · obtain ⟨m, i, a, hsh⟩ := historyAutocomplete_one_shape _ true
        rw [hsh]
        exact ⟨hb1, hb2, hb3⟩

/-! ## The live-state invariant (no history navigation) -/

theorem active_of_live (s : InputState) (h : s.hist_ptr = (s.history.length : Int)) :
    activeBufferString s = String.mk s.text_buffer := by
  unfold activeBufferString
  rw [if_neg (by omega)]

/-- Invariant holding as long as no history-up or history-down event
occurs: the
session stays live (pointer at `len(history)`, no saved draft), the
cursor stays inside `[0, len(text_buffer)]`, and a non-empty match list
always carries a selected index. -/
def LiveInv (s : InputState) : Prop :=
  s.hist_ptr = (s.history.length : Int) ∧ s.saved_text_buffer = [] ∧
  0 ≤ s.cursor_pos ∧ s.cursor_pos ≤ (s.text_buffer.length : Int) ∧
  (s.matches' ≠ [] → -1 < s.match_index)

theorem liveInv_commitFinal (s : InputState) (h : LiveInv s) :
    LiveInv (commitFinal s).2 := by
  unfold commitFinal
  dsimp only []
  split
  · exact h
  · exact h

theorem liveInv_step (s : InputState) (k : Key) (s' : InputState)
    (hInv : LiveInv s) (hk : k ≠ Key.histUp ∧ k ≠ Key.histDown)
    (hres : stepState (step s k) = some s') : LiveInv s' := by
  obtain ⟨h1, h2, h3, h4, h5⟩ := hInv
  unfold step at hres
  by_cases hb : s.bound ≤ 0
  · rw [if_pos hb] at hres
    simp only [stepState, Option.some.injEq] at hres
    subst hres
    exact ⟨h1, h2, h3, h4, h5⟩
  · rw [if_neg hb] at hres
    cases k with
    | histUp => exact absurd rfl hk.1
    | histDown => exact absurd rfl hk.2
    | enter =>
      dsimp only [] at hres
      rw [if_neg (by intro hcon; exact hcon.1 h1)] at hres
      simp only [stepState, Option.some.injEq] at hres
      subst hres
      rw [pull_of_ge s (by omega)]
      exact ⟨rfl, h2, h3, h4, h5⟩
    | esc =>
      dsimp only [] at hres
      split at hres
      · simp only [stepState, Option.some.injEq] at hres
        subst hres
        exact ⟨h1, h2, h3, h4, fun hne => absurd rfl hne⟩
      · split at hres
        · rename_i hcond
          exact absurd h1 hcond
        · simp only [stepState, Option.some.injEq] at hres
          subst hres
          exact ⟨h1, h2, h3, h4, h5⟩
    | backspace =>
      dsimp only [] at hres
      split at hres
      · rename_i hcur
        cases hbs : backspace s with
        | none => rw [hbs] at hres; simp [stepState] at hres
        | some s1 =>
          rw [hbs] at hres
          simp only [stepState, Option.some.injEq] at hres
          subst hres
          obtain ⟨tb, hpp, hs1⟩ := backspace_some hbs
          rw [pull_of_ge s (by omega)] at hpp hs1
          have hlen := pyPop_some_length hpp
          have hmi := historyAutocomplete_one_matchIdx s1 true
            (by rw [hs1]; exact h5)
          obtain ⟨m, i, a, hsh⟩ := historyAutocomplete_one_shape s1 true
          rw [hsh] at hmi ⊢
          subst hs1
          refine ⟨h1, h2, by simp only []; omega, by simp only []; omega, hmi⟩
      · simp only [stepState, Option.some.injEq] at hres
        subst hres
        exact ⟨h1, h2, h3, h4, h5⟩
    | del =>
      dsimp only [] at hres
      split at hres
      · rename_i hcur
        rw [active_of_live s h1, string_mk_length] at hcur
        cases hds : deleteChar s with
        | none => rw [hds] at hres; simp [stepState] at hres
        | some s1 =>
          rw [hds] at hres
          simp only [stepState, Option.some.injEq] at hres
          subst hres
          obtain ⟨tb, hpp, hs1⟩ := deleteChar_some hds
          rw [pull_of_ge s (by omega)] at hpp hs1
          have hlen := pyPop_some_length hpp
          rcases hs1 with hs1 | ⟨hs1, heq⟩
          · subst hs1
            exact ⟨h1, h2, h3, by simp only []; omega, h5⟩
          · rw [active_of_live { s with text_buffer := tb } h1, string_mk_length] at heq
            subst hs1
            refine ⟨h1, h2, by simp only []; omega, by simp only []; omega, h5⟩
      · simp only [stepState, Option.some.injEq] at hres
        subst hres
        exact ⟨h1, h2, h3, h4, h5⟩
    | left =>
      dsimp only [] at hres
      split at hres
      · rename_i hcur
        simp only [stepState, Option.some.injEq] at hres
        subst hres
        unfold left
        exact ⟨h1, h2, by simp only []; omega, by simp only []; omega, h5⟩
      · simp only [stepState, Option.some.injEq] at hres
        subst hres
        exact ⟨h1, h2, h3, h4, h5⟩
    | right =>
      dsimp only [] at hres
      split at hres
      · rename_i hg
        simp only [stepState, Option.some.injEq] at hres
        subst hres
        unfold right
        split
        · unfold acceptHistoryMatch
          dsimp only []
          exact ⟨h1, h2, by simp only []; exact Int.natCast_nonneg _,
            by simp only []; omega, h5⟩
        · rename_i hidx
          have hm : s.matches' = [] := by
            by_contra hne
            exact hidx (h5 hne)
          have hg2 : s.cursor_pos < s.bound ∧
              s.cursor_pos < ((activeBufferString s).length : Int) := by
            rcases hg with hg | hg
            · exact hg
            · exact absurd hm hg
          rw [active_of_live s h1, string_mk_length] at hg2
          exact ⟨h1, h2, by simp only []; omega, by simp only []; omega, h5⟩
      · simp only [stepState, Option.some.injEq] at hres
        subst hres
        exact ⟨h1, h2, h3, h4, h5⟩
    | home =>
      simp only [stepState, Option.some.injEq] at hres
      subst hres
      exact ⟨h1, h2, by simp only []; omega, by simp only []; omega, h5⟩
    | endKey =>
      simp only [stepState, Option.some.injEq] at hres
      subst hres
      rw [active_of_live s h1, string_mk_length]
      exact ⟨h1, h2, by simp only []; omega, by simp only []; omega, h5⟩
    | tab =>
      simp only [stepState, Option.some.injEq] at hres
      subst hres
      have hmi := historyAutocomplete_one_matchIdx s false h5
      obtain ⟨m, i, a, hsh⟩ := historyAutocomplete_one_shape s false
      rw [hsh] at hmi ⊢
      exact ⟨h1, h2, h3, h4, hmi⟩
    | btab =>
      simp only [stepState, Option.some.injEq] at hres
      subst hres
      rcases historyAutocomplete_negdir s with heq | heq <;> rw [heq]
      · exact ⟨h1, h2, h3, h4, h5⟩
      · rcases prevHistoryMatch_shape s with hps | ⟨m, i, hi, ⟨hc, hps⟩ | ⟨hc, hps⟩⟩
        · rw [hps]
          exact ⟨h1, h2, h3, h4, h5⟩
        · rw [hps]
          exact ⟨h1, h2, h3, h4, fun _ => by simp only []; omega⟩
        · omega
    | char c =>
      dsimp only [] at hres
      simp only [stepState, Option.some.injEq] at hres
      subst hres
      rw [pull_of_ge s (by omega)]
      split
      · rename_i hlt
        have hmi := historyAutocomplete_one_matchIdx
          { s with text_buffer := pyInsertAt s.text_buffer s.cursor_pos c,
                   cursor_pos := s.cursor_pos + 1 } true (by exact h5)
        obtain ⟨m, i, a, hsh⟩ := historyAutocomplete_one_shape
          { s with text_buffer := pyInsertAt s.text_buffer s.cursor_pos c,
                   cursor_pos := s.cursor_pos + 1 } true
        rw [hsh] at hmi ⊢
        have hil := pyInsertAt_length s.text_buffer s.cursor_pos c
        refine ⟨h1, h2, by simp only []; omega, ?_, hmi⟩
        simp only [hil]
        omega
      · have hmi := historyAutocomplete_one_matchIdx s true (by exact h5)
        obtain ⟨m, i, a, hsh⟩ := historyAutocomplete_one_shape s true
        rw [hsh] at hmi ⊢
        exact ⟨h1, h2, h3, h4, hmi⟩

/-! ## Draft preservation under pure browsing, and insertion-only runs -/

theorem downRestore_hist_ptr (x : InputState) :
    (downRestore x).hist_ptr = x.hist_ptr := by
  rw [downRestore_eq]; split <;> rfl

theorem pull_match_index (x : InputState) :
    (pullHistoryToCurrent x).match_index = x.match_index := by
  unfold pullHistoryToCurrent; split <;> rfl

theorem runInput_cons_cont {s s1 : InputState} {k : Key} {ks : List Key}
    (h : step s k = .cont s1) (hk : k ≠ Key.char (Char.ofNat 0)) :
    runInput s (k :: ks) = runInput s1 ks := by
  conv_lhs => unfold runInput
  rw [if_neg hk, h]

theorem commitFinal_empty (s : InputState) (h : s.text_buffer = []) :
    (commitFinal s).1 = s.dflt ∧ (commitFinal s).2.hist_file = s.hist_file ++ [s.dflt] := by
  unfold commitFinal
  dsimp only []
  rw [h, if_neg (by decide)]
  exact ⟨rfl, rfl⟩

/-- Invariant for pure browsing from buffer content `B`: the edit
buffer still holds `B` and the saved draft is absent or a copy of `B`. -/
def DraftInv (B : List Char) (s : InputState) : Prop :=
  s.text_buffer = B ∧ (s.saved_text_buffer = [] ∨ s.saved_text_buffer = B) ∧ 0 < s.bound

theorem downRestore_draftInv (B : List Char) (x : InputState) (h : DraftInv B x) :
    DraftInv B (downRestore x) := by
  obtain ⟨h1, h2, h3⟩ := h
  rw [downRestore_eq]
  split
  · rename_i hc
    rcases h2 with h2 | h2
    · exact absurd h2 hc.1
    · exact ⟨h2, Or.inl rfl, h3⟩
  · exact ⟨h1, h2, h3⟩

theorem draftInv_step (B : List Char) (s : InputState) (k : Key)
    (hInv : DraftInv B s) (hk : k = Key.histUp ∨ k = Key.histDown) :
    ∃ s1, step s k = .cont s1 ∧ DraftInv B s1 := by
  obtain ⟨h1, h2, h3⟩ := hInv
  have hb : ¬ s.bound ≤ 0 := by omega
  rcases hk with hk | hk <;> subst hk
  · unfold step
    rw [if_neg hb]
    dsimp only []
    split
    · refine ⟨up s, rfl, ?_⟩
      obtain ⟨p, c, heq, _, _, _, _⟩ := up_shape s
      rw [heq]
      refine ⟨?_, ?_, ?_⟩
      · simp only [captureSaved_text]
        exact h1
      · simp only [captureSaved_saved]
        split_ifs with hsv
        · exact Or.inr h1
        · rcases h2 with h2 | h2
          · exact absurd h2 hsv
          · exact Or.inr h2
      · simp only [captureSaved_bound]
        exact h3
    · exact ⟨s, rfl, ⟨h1, h2, h3⟩⟩
  · unfold step
    rw [if_neg hb]
    dsimp only []
    split
    · rename_i hp
      refine ⟨down s, rfl, ?_⟩
      obtain ⟨p, heq, _, _⟩ := down_shape s hp
      rw [heq]
      exact downRestore_draftInv B _ ⟨h1, h2, h3⟩
    · exact ⟨s, rfl, ⟨h1, h2, h3⟩⟩

/-- Invariant for insertion-only runs: the session stays live, the
cursor sits at the end of the buffer, and the buffer length never
exceeds the bound. -/
def InsOnlyInv (b : Int) (s : InputState) : Prop :=
  s.bound = b ∧ s.hist_ptr = (s.history.length : Int) ∧
  s.cursor_pos = (s.text_buffer.length : Int) ∧ (s.text_buffer.length : Int) ≤ b

theorem insOnlyInv_commitFinal (b : Int) (s : InputState) (h : InsOnlyInv b s) :
    InsOnlyInv b (commitFinal s).2 := by
  unfold commitFinal
  dsimp only []
  split
  · exact h
  · exact h

theorem insOnlyInv_step (b : Int) (s : InputState) (c : Char) (s' : InputState)
    (hInv : InsOnlyInv b s) (hres : stepState (step s (Key.char c)) = some s') :
    InsOnlyInv b s' := by
  obtain ⟨h0, h1, h2, h3⟩ := hInv
  unfold step at hres
  by_cases hb : s.bound ≤ 0
  · rw [if_pos hb] at hres
    simp only [stepState, Option.some.injEq] at hres
    subst hres
    exact ⟨h0, h1, h2, h3⟩
  · rw [if_neg hb] at hres
    dsimp only [] at hres
    simp only [stepState, Option.some.injEq] at hres
    subst hres
    rw [pull_of_ge s (by omega)]
    split
    · rename_i hlt
      obtain ⟨m, i, a, hsh⟩ := historyAutocomplete_one_shape
        { s with text_buffer := pyInsertAt s.text_buffer s.cursor_pos c,
                 cursor_pos := s.cursor_pos + 1 } true
      rw [hsh]
      have hil := pyInsertAt_length s.text_buffer s.cursor_pos c
      refine ⟨h0, h1, ?_, ?_⟩
      · simp only [hil]
        omega
      · simp only [hil]
        omega
    · obtain ⟨m, i, a, hsh⟩ := historyAutocomplete_one_shape s true
      rw [hsh]
      exact ⟨h0, h1, h2, h3⟩

/-! ## Initial-state facts -/

theorem baseInv_init (h : List String) (d : String) (b : Int) :
    BaseInv (initAutocomplete (initState h d b)) := by
  unfold initAutocomplete loadHistoryMatches clearHistoryMatches initState
  exact ⟨by simp only []; omega, by simp only []; omega, by simp only []; omega⟩

theorem liveInv_init (h : List String) (d : String) (b : Int) :
    LiveInv (initAutocomplete (initState h d b)) := by
  unfold initAutocomplete loadHistoryMatches clearHistoryMatches initState
  exact ⟨rfl, rfl, by simp only []; omega, by simp only [List.length_nil]; omega,
    fun hne => absurd rfl hne⟩

theorem insOnlyInv_init (h : List String) (d : String) (b : Int) (hb : 0 ≤ b) :
    InsOnlyInv b (initAutocomplete (initState h d b)) := by
  unfold initAutocomplete loadHistoryMatches clearHistoryMatches initState
  exact ⟨rfl, rfl, rfl, by simp only [List.length_nil]; omega⟩


theorem step_histUp_pos (s : InputState) (hb : ¬ s.bound ≤ 0) (hp : 0 < s.hist_ptr) :
    step s Key.histUp = .cont (up s) := by
  unfold step
  rw [if_neg hb]
  dsimp only []
  rw [if_pos hp]

/-! ## Sample states used by witnesses -/

/-- A live session state with a non-empty buffer, used to witness
hypothesis-bearing theorems. -/
def liveSample : InputState :=
  { history := ["old"], bound := 5, dflt := "", text_buffer := ['h', 'i'],
    cursor_pos := 2, hist_ptr := 1, saved_text_buffer := [],
    history_matches := [], extended_matches := [], matches' := [],
    match_index := -1, autocomplete_buffer := "", hist_file := ["old"] }

/-- A state with an active suggestion whose text extends the buffer. -/
def acceptSample : InputState :=
  { history := ["foobar"], bound := 10, dflt := "", text_buffer := ['f', 'o'],
    cursor_pos := 2, hist_ptr := 1, saved_text_buffer := [],
    history_matches := [['f', 'o', 'o', 'b', 'a', 'r']], extended_matches := [],
    matches' := ["foobar"], match_index := 0, autocomplete_buffer := "foobar",
    hist_file := ["foobar"] }

/-- A state with three loaded matches and no selected suggestion. -/
def cycleSample : InputState :=
  { history := ["a", "b", "c"], bound := 5, dflt := "", text_buffer := [],
    cursor_pos := 0, hist_ptr := 3, saved_text_buffer := [],
    history_matches := [['c'], ['b'], ['a']], extended_matches := [],
    matches' := ["c", "b", "a"], match_index := -1, autocomplete_buffer := "",
    hist_file := ["a", "b", "c"] }

/-! ## C1: bound invariant for insertions -/

/-- C1 fails as stated: the insertion guard compares the cursor (not
the active text length) against the bound, so after `'a'`, `'b'`,
Home, `'c'` with bound 2 the active text has length 3 > 2 — the third
insertion happened although `length(active text) < bound` was false. -/
theorem C1_counterexample :
    (resState (getInput [] "" 2
        [Key.char 'a', Key.char 'b', Key.home, Key.char 'c'])).map
      (fun s => (((activeBufferString s).length : Int), s.bound)) = some (3, 2) ∧
    ¬ ((3 : Int) ≤ 2) :=
  ⟨rfl, by decide⟩

/-- C1 (amended): a printable key inserts at the cursor if and only if
`cursor_pos < bound` (the code's guard is on the cursor, not on the
length of the active text), so mid-buffer insertion can push the length
above the bound; for sequences consisting only of insertions (where the
cursor always sits at the end) `length(active text) ≤ bound` does hold
throughout, for any bound ≥ 0. -/
theorem C1_insert_amended :
    (∀ (s : InputState) (c : Char), 0 < s.bound →
      s.hist_ptr = (s.history.length : Int) →
      ((s.cursor_pos < s.bound →
        ∃ s1, step s (Key.char c) = .cont s1 ∧
          s1.text_buffer = pyInsertAt s.text_buffer s.cursor_pos c ∧
          s1.cursor_pos = s.cursor_pos + 1) ∧
       (¬ s.cursor_pos < s.bound →
        ∃ s1, step s (Key.char c) = .cont s1 ∧
          s1.text_buffer = s.text_buffer ∧ s1.cursor_pos = s.cursor_pos))) ∧
    (∀ (h : List String) (d : String) (b : Int) (cs : List Char) (s' : InputState),
      0 ≤ b → resState (getInput h d b (cs.map Key.char)) = some s' →
      ((activeBufferString s').length : Int) ≤ b) := by
  constructor
  · intro s c hb hptr
    constructor
    · intro hlt
      obtain ⟨m, i, a, hsh⟩ := historyAutocomplete_one_shape
        { s with text_buffer := pyInsertAt s.text_buffer s.cursor_pos c,
                 cursor_pos := s.cursor_pos + 1 } true
      refine ⟨{ { s with
                  text_buffer := pyInsertAt s.text_buffer s.cursor_pos c,
                  cursor_pos := s.cursor_pos + 1 } with
                  matches' := m, match_index := i, autocomplete_buffer := a },
        ?_, rfl, rfl⟩
      unfold step
      rw [if_neg (by omega)]
      dsimp only []
      rw [pull_of_ge s (by omega), if_pos hlt, hsh]
    · intro hge
      obtain ⟨m, i, a, hsh⟩ := historyAutocomplete_one_shape s true
      refine ⟨{ s with matches' := m, match_index := i, autocomplete_buffer := a },
        ?_, rfl, rfl⟩
      unfold step
      rw [if_neg (by omega)]
      dsimp only []
      rw [pull_of_ge s (by omega), if_neg hge, hsh]
  · intro h d b cs s' hb hres
    have hA : ∀ k ∈ cs.map Key.char, ∃ ch, k = Key.char ch := by
      intro k hk
      obtain ⟨ch, _, rfl⟩ := List.mem_map.mp hk
      exact ⟨ch, rfl⟩
    have hI := run_inv (InsOnlyInv b) (fun k => ∃ ch, k = Key.char ch)
      (fun s2 k2 s3 hP hA2 h2 => by
        obtain ⟨ch, rfl⟩ := hA2
        exact insOnlyInv_step b s2 ch s3 hP h2)
      (insOnlyInv_commitFinal b) _ _ s' (insOnlyInv_init h d b hb) hA hres
    rw [active_of_live s' hI.2.1, string_mk_length]
    exact hI.2.2.2

/-- C1 witness: the amended insertion law applied at a concrete live
state with room left before the bound. -/
theorem C1_witness :
    ∃ s1, step liveSample (Key.char 'z') = .cont s1 ∧
      s1.text_buffer = pyInsertAt liveSample.text_buffer liveSample.cursor_pos 'z' ∧
      s1.cursor_pos = liveSample.cursor_pos + 1 :=
  (C1_insert_amended.1 liveSample 'z' (by decide) (by decide)).1 (by decide)

/-! ## C2: cursor range invariant -/

/-- C2 fails as stated: Confirm while browsing restores the cursor from
the (stale) saved draft without re-clamping, so after the trace below
the cursor is 2 while the active text is `"x"` of length 1. -/
theorem C2_counterexample :
    (resState (getInput ["a"] "" 10
        [Key.char 'x', Key.char 'y', Key.histUp, Key.enter, Key.backspace,
         Key.histUp, Key.enter])).map
      (fun s => (s.cursor_pos, ((activeBufferString s).length : Int)))
      = some (2, 1) ∧ ¬ ((2 : Int) ≤ 1) := by
  constructor
  · have hup1 : up (⟨["a"], 10, "", ['x', 'y'], 2, 1, [], [['a']], [], [], -1, "", ["a"]⟩
        : InputState) =
        ⟨["a"], 10, "", ['x', 'y'], 1, 0, ['x', 'y'], [['a']], [], [], -1, "", ["a"]⟩ := by
      rw [up.eq_def]
      decide
    have hup2 : up (⟨["a"], 10, "", ['x'], 1, 1, ['x', 'y'], [['a']], [], [], -1, "", ["a"]⟩
        : InputState) =
        ⟨["a"], 10, "", ['x'], 1, 0, ['x', 'y'], [['a']], [], [], -1, "", ["a"]⟩ := by
      rw [up.eq_def]
      decide
    have st0 : initAutocomplete (initState ["a"] "" 10) =
        ⟨["a"], 10, "", [], 0, 1, [], [['a']], [], [], -1, "", ["a"]⟩ := by decide
    have st1 : step (⟨["a"], 10, "", [], 0, 1, [], [['a']], [], [], -1, "", ["a"]⟩
        : InputState) (Key.char 'x') =
        .cont ⟨["a"], 10, "", ['x'], 1, 1, [], [['a']], [], [], -1, "", ["a"]⟩ := by decide
    have st2 : step (⟨["a"], 10, "", ['x'], 1, 1, [], [['a']], [], [], -1, "", ["a"]⟩
        : InputState) (Key.char 'y') =
        .cont ⟨["a"], 10, "", ['x', 'y'], 2, 1, [], [['a']], [], [], -1, "", ["a"]⟩ := by
      decide
    have stu1 := step_histUp_pos
      (⟨["a"], 10, "", ['x', 'y'], 2, 1, [], [['a']], [], [], -1, "", ["a"]⟩ : InputState)
      (by decide) (by decide)
    have st3 : step (⟨["a"], 10, "", ['x', 'y'], 1, 0, ['x', 'y'], [['a']], [], [], -1, "",
        ["a"]⟩ : InputState) Key.enter =
        .cont ⟨["a"], 10, "", ['x', 'y'], 2, 1, ['x', 'y'], [['a']], [], [], -1, "", ["a"]⟩ := by
      decide
    have st4 : step (⟨["a"], 10, "", ['x', 'y'], 2, 1, ['x', 'y'], [['a']], [], [], -1, "",
        ["a"]⟩ : InputState) Key.backspace =
        .cont ⟨["a"], 10, "", ['x'], 1, 1, ['x', 'y'], [['a']], [], [], -1, "", ["a"]⟩ := by
      decide
    have stu2 := step_histUp_pos
      (⟨["a"], 10, "", ['x'], 1, 1, ['x', 'y'], [['a']], [], [], -1, "", ["a"]⟩ : InputState)
      (by decide) (by decide)
    unfold getInput
    rw [st0, runInput_cons_cont st1 (by decide), runInput_cons_cont st2 (by decide),
      runInput_cons_cont stu1 (by decide), hup1, runInput_cons_cont st3 (by decide),
      runInput_cons_cont st4 (by decide), runInput_cons_cont stu2 (by decide), hup2]
    decide
  · decide

/-- C2 (amended): the lower bound `0 ≤ cursor_pos` holds after every
event of every run; the upper bound `cursor_pos ≤ length(active text)`
holds for every run that contains no history-up and no history-down
event (it can be violated once history browsing is involved — see the
counterexample). -/
theorem C2_cursor_amended :
    ∀ (h : List String) (d : String) (b : Int) (ks : List Key) (s' : InputState),
      resState (getInput h d b ks) = some s' →
      0 ≤ s'.cursor_pos ∧
      ((∀ k ∈ ks, k ≠ Key.histUp ∧ k ≠ Key.histDown) →
        s'.cursor_pos ≤ ((activeBufferString s').length : Int)) := by
  intro h d b ks s' hres
  constructor
  · exact (run_inv BaseInv (fun _ => True)
      (fun s k s2 hP _ => baseInv_step s k s2 hP) baseInv_commitFinal ks _ s'
      (baseInv_init h d b) (fun _ _ => trivial) hres).2.2
  · intro hks
    have hL := run_inv LiveInv (fun k => k ≠ Key.histUp ∧ k ≠ Key.histDown)
      (fun s k s2 hP hA h2 => liveInv_step s k s2 hP hA h2) liveInv_commitFinal ks _ s'
      (liveInv_init h d b) hks hres
    rw [active_of_live s' hL.1, string_mk_length]
    exact hL.2.2.2.1

/-- C2 witness: both cursor bounds at the end of a concrete run with a
printable key and a backspace. -/
theorem C2_witness :
    0 ≤ (Option.getD (resState (getInput [] "" 3 [Key.char 'a', Key.backspace]))
        liveSample).cursor_pos ∧
    (Option.getD (resState (getInput [] "" 3 [Key.char 'a', Key.backspace]))
        liveSample).cursor_pos ≤
      ((activeBufferString (Option.getD
          (resState (getInput [] "" 3 [Key.char 'a', Key.backspace])) liveSample)).length
        : Int) := by
  have hc := C2_cursor_amended [] "" 3 [Key.char 'a', Key.backspace]
    (Option.getD (resState (getInput [] "" 3 [Key.char 'a', Key.backspace])) liveSample)
    rfl
  exact ⟨hc.1, hc.2 (by decide)⟩

/-! ## C3: history pointer range -/

/-- C3 fails as stated: with `history = ["ab"]` and `bound = 1` the
oldest entry exceeds the bound, and a single history-up recursively
skips past index 0 and leaves the pointer at `-1` (the claim says it
never goes below 0). -/
theorem C3_counterexample :
    (resState (getInput ["ab"] "" 1 [Key.histUp])).map (fun s => s.hist_ptr)
      = some (-1) ∧ ((-1 : Int) < 0) := by
  constructor
  · have hup : up (⟨["ab"], 1, "", [], 0, 1, [], [], [], [], -1, "", ["ab"]⟩
        : InputState) =
        ⟨["ab"], 1, "", [], 0, -1, [], [], [], [], -1, "", ["ab"]⟩ := by
      rw [up.eq_def]
      dsimp only []
      rw [up.eq_def]
      decide
    have st0 : initAutocomplete (initState ["ab"] "" 1) =
        ⟨["ab"], 1, "", [], 0, 1, [], [], [], [], -1, "", ["ab"]⟩ := by decide
    have stu := step_histUp_pos
      (⟨["ab"], 1, "", [], 0, 1, [], [], [], [], -1, "", ["ab"]⟩ : InputState)
      (by decide) (by decide)
    unfold getInput
    rw [st0, runInput_cons_cont stu (by decide), hup]
    decide
  · decide

/-- C3 (amended): over every run the history pointer stays in
`[-1, len(history)]` (not `[0, len(history)]`: `older()` can reach `-1`
by recursively skipping past index 0 when every older entry exceeds the
bound); `newer()` strictly increases the pointer and never moves it
above `len(history)`. -/
theorem C3_pointer_range_amended :
    (∀ (h : List String) (d : String) (b : Int) (ks : List Key) (s' : InputState),
      resState (getInput h d b ks) = some s' →
      -1 ≤ s'.hist_ptr ∧ s'.hist_ptr ≤ (s'.history.length : Int)) ∧
    (∀ s : InputState, s.hist_ptr < (s.history.length : Int) →
      s.hist_ptr < (down s).hist_ptr ∧ (down s).hist_ptr ≤ (s.history.length : Int)) := by
  constructor
  · intro h d b ks s' hres
    have hB := run_inv BaseInv (fun _ => True)
      (fun s k s2 hP _ => baseInv_step s k s2 hP) baseInv_commitFinal ks _ s'
      (baseInv_init h d b) (fun _ _ => trivial) hres
    exact ⟨hB.1, hB.2.1⟩
  · intro s hp
    obtain ⟨p, heq, hp1, hp2⟩ := down_shape s hp
    rw [heq, downRestore_hist_ptr]
    constructor
    · simp only []
      omega
    · simp only []
      omega

/-- C3 witness: the amended pointer range at the end of a concrete
one-key run, and the `newer()` bound at a concrete browsing state. -/
theorem C3_witness :
    (-1 ≤ (Option.getD (resState (getInput ["a"] "" 5 [Key.char 'q'])) liveSample).hist_ptr ∧
      (Option.getD (resState (getInput ["a"] "" 5 [Key.char 'q'])) liveSample).hist_ptr ≤
        (((Option.getD (resState (getInput ["a"] "" 5 [Key.char 'q'])) liveSample).history.length
          : Nat) : Int)) ∧
    ({ liveSample with hist_ptr := 0 } : InputState).hist_ptr <
        (down { liveSample with hist_ptr := 0 }).hist_ptr ∧
      (down { liveSample with hist_ptr := 0 }).hist_ptr ≤
        (({ liveSample with hist_ptr := 0 } : InputState).history.length : Int) :=
  ⟨C3_pointer_range_amended.1 ["a"] "" 5 [Key.char 'q'] _ rfl,
   C3_pointer_range_amended.2 { liveSample with hist_ptr := 0 } (by decide)⟩

/-! ## C4: saved-draft lifecycle -/

/-- C4 fails as stated: Confirm while browsing returns the pointer to
`len(history)` without clearing the saved draft, so after
`'x'`, Up, Enter the pointer equals `N = 1` while the saved draft
`['x']` is still present — the claim says the draft is never present
when the pointer equals `N`. -/
theorem C4_counterexample :
    (resState (getInput ["a"] "" 10 [Key.char 'x', Key.histUp, Key.enter])).map
      (fun s => (s.hist_ptr, (s.history.length : Int), s.saved_text_buffer))
      = some (1, 1, ['x']) ∧ (['x'] : List Char) ≠ [] := by
  constructor
  · have hup : up (⟨["a"], 10, "", ['x'], 1, 1, [], [['a']], [], [], -1, "", ["a"]⟩
        : InputState) =
        ⟨["a"], 10, "", ['x'], 1, 0, ['x'], [['a']], [], [], -1, "", ["a"]⟩ := by
      rw [up.eq_def]
      decide
    have st0 : initAutocomplete (initState ["a"] "" 10) =
        ⟨["a"], 10, "", [], 0, 1, [], [['a']], [], [], -1, "", ["a"]⟩ := by decide
    have st1 : step (⟨["a"], 10, "", [], 0, 1, [], [['a']], [], [], -1, "", ["a"]⟩
        : InputState) (Key.char 'x') =
        .cont ⟨["a"], 10, "", ['x'], 1, 1, [], [['a']], [], [], -1, "", ["a"]⟩ := by decide
    have stu := step_histUp_pos
      (⟨["a"], 10, "", ['x'], 1, 1, [], [['a']], [], [], -1, "", ["a"]⟩ : InputState)
      (by decide) (by decide)
    unfold getInput
    rw [st0, runInput_cons_cont st1 (by decide), runInput_cons_cont stu (by decide), hup]
    decide
  · decide

/-- C4 (amended): the draft-capture and draft-clearing transitions hold
as individual steps — `up` from a state with no saved draft captures a
copy of the edit buffer (and never touches the buffer itself),
pull-to-live clears the draft and resets the pointer, and `down`'s
restore step (back at the live position with a draft present) restores
the buffer and clears the draft — but the global "draft exists iff
pointer < N" of the claim fails: the draft is tracked by non-emptiness
(an empty pre-browse buffer leaves no draft while browsing), and
Confirm/Cancel while browsing resets the pointer without clearing the
draft. -/
theorem C4_saved_draft_amended :
    ∀ s : InputState,
      (s.saved_text_buffer = [] →
        (up s).saved_text_buffer = s.text_buffer ∧ (up s).text_buffer = s.text_buffer) ∧
      (s.hist_ptr < (s.history.length : Int) →
        (pullHistoryToCurrent s).saved_text_buffer = [] ∧
        (pullHistoryToCurrent s).hist_ptr = (s.history.length : Int)) ∧
      (s.saved_text_buffer ≠ [] → s.hist_ptr = (s.history.length : Int) →
        (downRestore s).text_buffer = s.saved_text_buffer ∧
        (downRestore s).saved_text_buffer = []) := by
  intro s
  refine ⟨?_, ?_, ?_⟩
  · intro hsv
    obtain ⟨p, c, heq, _, _, _, _⟩ := up_shape s
    rw [heq]
    constructor
    · simp [captureSaved_saved, hsv]
    · simp [captureSaved_text]
  · intro hp
    rw [pull_of_lt s hp]
    exact ⟨rfl, rfl⟩
  · intro hsv hptr
    rw [downRestore_eq, if_pos ⟨hsv, hptr⟩]
    exact ⟨rfl, rfl⟩

/-- C4 witness: the three amended draft-lifecycle facts at concrete
states. -/
theorem C4_witness :
    ((up liveSample).saved_text_buffer = liveSample.text_buffer ∧
      (up liveSample).text_buffer = liveSample.text_buffer) ∧
    ((pullHistoryToCurrent { liveSample with hist_ptr := 0 }).saved_text_buffer = [] ∧
      (pullHistoryToCurrent { liveSample with hist_ptr := 0 }).hist_ptr =
        (({ liveSample with hist_ptr := 0 } : InputState).history.length : Int)) ∧
    ((downRestore { liveSample with saved_text_buffer := ['z'] }).text_buffer = ['z'] ∧
      (downRestore { liveSample with saved_text_buffer := ['z'] }).saved_text_buffer = []) :=
  ⟨(C4_saved_draft_amended liveSample).1 rfl,
   (C4_saved_draft_amended { liveSample with hist_ptr := 0 }).2.1 (by decide),
   (C4_saved_draft_amended { liveSample with saved_text_buffer := ['z'] }).2.2
     (by decide) (by decide)⟩

/-! ## C5: draft preservation over a browsing round trip -/

/-- C5: from any live state (pointer at `len(history)`, no saved
draft, positive bound), `k` history-up events followed by `k`
history-down events leave the run pending with the edit buffer exactly
equal to its pre-browse content. -/
theorem C5_draft_round_trip (s : InputState) (hb : 0 < s.bound)
    (_hptr : s.hist_ptr = (s.history.length : Int))
    (hsv : s.saved_text_buffer = []) (k : Nat) :
    ∃ s', runInput s (List.replicate k Key.histUp ++ List.replicate k Key.histDown)
        = .pending s' ∧ s'.text_buffer = s.text_buffer := by
  have hA : ∀ key ∈ List.replicate k Key.histUp ++ List.replicate k Key.histDown,
      key = Key.histUp ∨ key = Key.histDown := by
    intro key hkey
    rcases List.mem_append.mp hkey with hm | hm
    · exact Or.inl (List.eq_of_mem_replicate hm)
    · exact Or.inr (List.eq_of_mem_replicate hm)
  obtain ⟨s', hrun, hP⟩ := run_cont (DraftInv s.text_buffer)
    (fun key => key = Key.histUp ∨ key = Key.histDown)
    (fun s2 k2 hP hA2 => draftInv_step _ s2 k2 hP hA2)
    (fun k2 h2 => by rcases h2 with rfl | rfl <;> decide)
    _ s ⟨rfl, Or.inl hsv, hb⟩ hA
  exact ⟨s', hrun, hP.1⟩

/-- C5 witness: a one-up-one-down round trip from a concrete live
state preserves the buffer. -/
theorem C5_witness :
    ∃ s', runInput liveSample
        (List.replicate 1 Key.histUp ++ List.replicate 1 Key.histDown)
        = .pending s' ∧ s'.text_buffer = liveSample.text_buffer :=
  C5_draft_round_trip liveSample (by decide) (by decide) rfl 1

/-! ## C6: autocomplete prefix law and accept -/

/-- C6 fails as stated: with history `["ab"]`, typing `'a'` selects the
candidate `"ab"`, and pressing Left then Right triggers accept with the
cursor mid-buffer; the buffer becomes `"aab"`, not the accepted
candidate's full text `"ab"`. -/
theorem C6_counterexample :
    (resState (getInput ["ab"] "" 5 [Key.char 'a', Key.left, Key.right])).map
      (fun s => (String.mk s.text_buffer, s.matches', s.match_index))
      = some ("aab", ["ab"], 0) ∧ ("aab" : String) ≠ "ab" :=
  ⟨rfl, by decide⟩

/-- C6 (amended): a freshly recomputed match list (the
`_clear_matches` + `_filter_autocomplete` refresh that runs after every
edit) only contains candidates that start with the active text — the
list can go stale after history navigation, which does not refresh it —
and `accept()` produces exactly the candidate's full text with the
cursor at its end provided the cursor sits at the end of the buffer and
the suggestion extends the buffer. -/
theorem C6_autocomplete_amended :
    (∀ (s : InputState) (m : String),
      m ∈ (filterAutocomplete (clearMatches s)).matches' →
      pyStartsWith m (activeBufferString s) = true) ∧
    (∀ s : InputState, s.cursor_pos = (s.text_buffer.length : Int) →
      s.text_buffer <+: s.autocomplete_buffer.toList →
      (acceptHistoryMatch s).text_buffer = s.autocomplete_buffer.toList ∧
      (acceptHistoryMatch s).cursor_pos = (s.autocomplete_buffer.toList.length : Int)) := by
  constructor
  · intro s m hm
    unfold filterAutocomplete clearMatches at hm
    dsimp only [] at hm
    simp only [List.nil_append] at hm
    obtain ⟨pm, hpm, rfl⟩ := List.mem_map.mp hm
    have hcond := List.of_mem_filter hpm
    exact hcond
  · intro s hcur hpre
    obtain ⟨r, hr⟩ := hpre
    have hc0 : (0 : Int) ≤ s.cursor_pos := by
      rw [hcur]
      exact Int.natCast_nonneg _
    have hslice : (pySliceFrom s.autocomplete_buffer s.cursor_pos).toList = r := by
      rw [pySliceFrom_toList_of_nonneg _ _ hc0, hcur, Int.toNat_natCast, ← hr,
        List.drop_left]
    unfold acceptHistoryMatch
    dsimp only []
    rw [hslice]
    constructor
    · exact hr
    · rw [hr]

/-- C6 witness: accept at a concrete state (`"fo"` with suggestion
`"foobar"`) yields the candidate's full text with the cursor at its
end. -/
theorem C6_witness :
    (acceptHistoryMatch acceptSample).text_buffer = "foobar".toList ∧
    (acceptHistoryMatch acceptSample).cursor_pos = ("foobar".toList.length : Int) :=
  C6_autocomplete_amended.2 acceptSample (by decide) (by decide)

/-! ## C7: suggestion cycling -/

/-- C7 fails as stated: with history `["a", "b", "c"]` (three loaded
matches, most recent first) and no selection, a single backward cycle
selects index `(-1 - 1) % 3 = 1` — the second-to-last match — not the
last match (index 2). -/
theorem C7_counterexample :
    (resState (getInput ["a", "b", "c"] "" 5 [Key.btab])).map
      (fun s => (s.match_index, s.history_matches.length)) = some (1, 3) ∧
    (1 : Int) ≠ (3 : Int) - 1 :=
  ⟨rfl, by decide⟩

/-- C7 (amended): with 3 matches and no selection, four consecutive
forward cycles select the first match (indices 0, 1, 2, 0), as the
claim states; but a single backward cycle from no selection selects the
second-to-last match, index `(-1 - 1) % 3 = 1 = 3 - 2` (Python's
floored modulo), not the last. -/
theorem C7_cycle_amended :
    (∀ s : InputState, s.matches'.length = 3 → s.match_index = -1 →
      (nextHistoryMatch (nextHistoryMatch (nextHistoryMatch
        (nextHistoryMatch s)))).match_index = 0 ∧
      (nextHistoryMatch (nextHistoryMatch (nextHistoryMatch
        (nextHistoryMatch s)))).autocomplete_buffer = pyIdx s.matches' 0) ∧
    (∀ s : InputState, s.history_matches.length = 3 → s.match_index = -1 →
      (prevHistoryMatch s).match_index = 3 - 2) := by
  have step_next : ∀ (x : InputState) (j : Int), x.matches'.length = 3 →
      x.match_index = j →
      (nextHistoryMatch x).match_index = (j + 1) % 3 ∧
      (nextHistoryMatch x).matches' = x.matches' ∧
      (nextHistoryMatch x).autocomplete_buffer = pyIdx x.matches' ((j + 1) % 3) := by
    intro x j hlen hidx
    unfold nextHistoryMatch
    rw [if_pos (by intro hcon; rw [hcon] at hlen; simp at hlen)]
    dsimp only []
    rw [hidx, hlen]
    exact ⟨rfl, rfl, rfl⟩
  constructor
  · intro s hlen hidx
    obtain ⟨ha1, hb1, hc1⟩ := step_next s (-1) hlen hidx
    obtain ⟨ha2, hb2, hc2⟩ := step_next _ 0 (by rw [hb1, hlen]) (by rw [ha1]; decide)
    obtain ⟨ha3, hb3, hc3⟩ := step_next _ 1 (by rw [hb2, hb1, hlen]) (by rw [ha2]; decide)
    obtain ⟨ha4, hb4, hc4⟩ := step_next _ 2 (by rw [hb3, hb2, hb1, hlen])
      (by rw [ha3]; decide)
    constructor
    · rw [ha4]
      decide
    · rw [hc4, hb3, hb2, hb1]
      norm_num
  · intro s hlen hidx
    unfold prevHistoryMatch
    rw [if_pos (by intro hcon; rw [hcon] at hlen; simp at hlen)]
    dsimp only []
    show (pullHistoryToCurrent { s with match_index := (s.match_index - 1) %
        (s.history_matches.length : Int) }).match_index = 3 - 2
    rw [pull_match_index]
    simp only []
    rw [hidx, hlen]
    decide

/-- C7 witness: both cycling facts at a concrete three-match state. -/
theorem C7_witness :
    ((nextHistoryMatch (nextHistoryMatch (nextHistoryMatch
        (nextHistoryMatch cycleSample)))).match_index = 0 ∧
      (nextHistoryMatch (nextHistoryMatch (nextHistoryMatch
        (nextHistoryMatch cycleSample)))).autocomplete_buffer =
        pyIdx cycleSample.matches' 0) ∧
    (prevHistoryMatch cycleSample).match_index = 3 - 2 :=
  ⟨C7_cycle_amended.1 cycleSample rfl rfl, C7_cycle_amended.2 cycleSample rfl rfl⟩

/-! ## C8: commit persists exactly one entry -/

/-- C8: committing appends exactly one entry to the persisted history:
the final text is returned and appended when non-empty, else the
caller-supplied default is returned and appended. -/
theorem C8_commit_appends :
    ∀ s : InputState,
      (commitFinal s).2.hist_file = s.hist_file ++ [(commitFinal s).1] ∧
      (commitFinal s).1 =
        (if String.mk s.text_buffer = "" then s.dflt else String.mk s.text_buffer) := by
  intro s
  unfold commitFinal
  dsimp only []
  split
  · exact ⟨rfl, rfl⟩
  · rename_i hne
    rw [if_pos (by simpa using hne)]
    exact ⟨rfl, rfl⟩

/-! ## C9: non-positive bound -/

/-- C9 fails as stated: the loop head `while (key := self.win.getch()):`
(line 368) exits on a raw key code of 0 before the `bound <= 0` check
(line 370) is ever reached, so on a session with bound 0 a first NUL
key runs the commit tail and appends the default `"y"` to the history
file — the claim says nothing is ever appended, regardless of which
keys are pressed. -/
theorem C9_counterexample :
    (resState (getInput ["x"] "y" 0 [Key.char (Char.ofNat 0)])).map
      (fun s => s.hist_file) = some ["x", "y"] ∧
    (["x", "y"] : List String) ≠ ["x"] :=
  ⟨rfl, by decide⟩

/-- C9 (amended): with `bound ≤ 0`, any first key that the loop body
dispatches (raw code nonzero) makes the loop return `""` with the
history file untouched, and the outer `CommandWindow.get_input`
returns `""` whatever the inner result was; but a first key of raw
code 0 (NUL) ends the loop before the bound check, commits the empty
buffer, and appends the default to the history file. -/
theorem C9_nonpositive_amended :
    ∀ (h : List String) (d : String) (b : Int) (k : Key) (ks : List Key),
      b ≤ 0 →
      ((k ≠ Key.char (Char.ofNat 0) →
        getInput h d b (k :: ks) = .done "" (initAutocomplete (initState h d b)) ∧
        (initAutocomplete (initState h d b)).hist_file = h) ∧
       (k = Key.char (Char.ofNat 0) →
        ∃ s', getInput h d b (k :: ks) = .done d s' ∧ s'.hist_file = h ++ [d]) ∧
       (∀ r, commandWindowResult b r d = "")) := by
  intro h d b k ks hb
  refine ⟨?_, ?_, ?_⟩
  · intro hk
    have hs : step (initAutocomplete (initState h d b)) k =
        .exit "" (initAutocomplete (initState h d b)) := by
      unfold step
      rw [if_pos (show (initAutocomplete (initState h d b)).bound ≤ 0 from hb)]
    refine ⟨?_, rfl⟩
    unfold getInput
    conv_lhs => unfold runInput
    rw [if_neg hk, hs]
  · intro hk
    subst hk
    obtain ⟨h1, h2⟩ := commitFinal_empty (initAutocomplete (initState h d b)) rfl
    refine ⟨(commitFinal (initAutocomplete (initState h d b))).2, ?_, ?_⟩
    · unfold getInput
      conv_lhs => unfold runInput
      rw [if_pos rfl, h1]
      rfl
    · rw [h2]
      rfl
  · intro r
    unfold commandWindowResult
    rw [if_pos hb]

/-- C9 witness: with bound 0, a first Enter returns `""` and leaves
the history file `["x"]` untouched, a first NUL key appends the
default `"y"` to it, and the outer result is `""` either way. -/
theorem C9_witness :
    (getInput ["x"] "y" 0 [Key.enter] =
        .done "" (initAutocomplete (initState ["x"] "y" 0)) ∧
      (initAutocomplete (initState ["x"] "y" 0)).hist_file = ["x"]) ∧
    (∃ s', getInput ["x"] "y" 0 [Key.char (Char.ofNat 0)] = .done "y" s' ∧
      s'.hist_file = ["x"] ++ ["y"]) ∧
    commandWindowResult 0 "" "y" = "" :=
  ⟨(C9_nonpositive_amended ["x"] "y" 0 Key.enter [] (by decide)).1 (by decide),
   (C9_nonpositive_amended ["x"] "y" 0 (Key.char (Char.ofNat 0)) [] (by decide)).2.1 rfl,
   (C9_nonpositive_amended ["x"] "y" 0 Key.enter [] (by decide)).2.2 ""⟩

/-! ## C10: forward cycle is frame-preserving -/

/-- C10: a forward autocomplete cycle (the tab handler's
`history_autocomplete(direction=1)` with `changed=False`) leaves the
edit buffer, cursor, history pointer, saved draft — and in fact every
field except the suggestion index and the suggestion overlay text —
unchanged. -/
theorem C10_forward_cycle_frame :
    ∀ s : InputState,
      (historyAutocomplete s false 1).text_buffer = s.text_buffer ∧
      (historyAutocomplete s false 1).cursor_pos = s.cursor_pos ∧
      (historyAutocomplete s false 1).hist_ptr = s.hist_ptr ∧
      (historyAutocomplete s false 1).saved_text_buffer = s.saved_text_buffer ∧
      (historyAutocomplete s false 1).history = s.history ∧
      (historyAutocomplete s false 1).history_matches = s.history_matches ∧
      (historyAutocomplete s false 1).extended_matches = s.extended_matches ∧
      (historyAutocomplete s false 1).matches' = s.matches' ∧
      (historyAutocomplete s false 1).hist_file = s.hist_file := by
  intro s
  unfold historyAutocomplete
  split
  · rw [if_neg Bool.false_ne_true, if_pos (show (1 : Int) = 1 from rfl)]
    unfold nextHistoryMatch
    split
    · exact ⟨rfl, rfl, rfl, rfl, rfl, rfl, rfl, rfl, rfl⟩
    · exact ⟨rfl, rfl, rfl, rfl, rfl, rfl, rfl, rfl, rfl⟩
  · exact ⟨rfl, rfl, rfl, rfl, rfl, rfl, rfl, rfl, rfl⟩

end Cinput
